import Mathlib

/-!
Verification development for the xrfc compiler (XRF → LLIR).

The definitions below are a shallow embedding of the compiler's middle-end:
the command/chunk data model (inc/xrf-command.hpp, inc/xrf-chunk.hpp), the
symbolic stack value algebra and chunk optimizer (src/optimization.cpp),
the program-level chunk fusion pass (src/optimization.cpp), the parser
(parser.cpp) and the code generator's PushSecondValue lowering
(codegen.cpp).  C++ `unsigned` is modelled as Nat with explicit reduction
mod 2^32 where the source can wrap; C++ `int` is modelled as Int;
`std::optional` as Option; `std::vector` as List in the same element
order (index 0 = front, `back()` = last).  Out-of-bounds vector accesses
and dereferences of empty optionals — undefined behavior in the source —
are modelled as explicit error outcomes.
-/

namespace Xrf

/-- The command tags of XRF: the sixteen primitive commands `0`–`F` plus the
extended commands synthesized by the optimizer (inc/xrf-command.hpp). -/
inductive CommandType where
  | Input
  | Output
  | Pop
  | Dup
  | Swap
  | Inc
  | Dec
  | Add
  | IgnoreFirst
  | Bottom
  | Jump
  | Exit
  | IgnoreVisited
  | Randomize
  | Sub
  | Nop
  | AddToSecond
  | MultiplySecond
  | PopSecondValue
  | PushSecondValue
  | PushValueToBottom
  | SetSecondValue
  | SetTop
  deriving DecidableEq

/-- True exactly on the sixteen primitive (source-level) command tags. -/
def CommandType.isPrimitive : CommandType → Bool
  | .Input | .Output | .Pop | .Dup | .Swap | .Inc | .Dec | .Add
  | .IgnoreFirst | .Bottom | .Jump | .Exit | .IgnoreVisited
  | .Randomize | .Sub | .Nop => true
  | _ => false

/-- A single XRF command: a tag plus the `int val` payload used by the
extended commands (inc/xrf-command.hpp). -/
structure Command where
  type : CommandType
  val : Int := 0
  deriving DecidableEq

/-- A chunk of XRF commands: command list, source position, and the
statically-known successor if any (inc/xrf-chunk.hpp).  The C++ default
constructor leaves `line`/`col` indeterminate; the model defaults them
to 0. -/
structure Chunk where
  commands : List Command := []
  line : Nat := 0
  col : Nat := 0
  nextChunk : Option Nat := none
  deriving DecidableEq

instance : Inhabited Chunk := ⟨{}⟩

/-- Modulus of C++ 32-bit unsigned arithmetic. -/
def U32 : Nat := 2 ^ 32

/-- Symbolic stack cell of the chunk optimizer (optimization.cpp,
class StackValue): optional origin index, optional known value, and the
linear transform bookkeeping `_knownChange` / `_knownMultiple`. -/
structure StackValue where
  index : Option Nat := none
  value : Option Nat := none
  knownChange : Int := 0
  knownMultiple : Nat := 1
  deriving DecidableEq

instance : Inhabited StackValue := ⟨{}⟩

/-- StackValue(unsigned index, unsigned val): both index and value known. -/
def StackValue.mkIndexValue (index val : Nat) : StackValue :=
  { index := some index, value := some val }

/-- StackValue::fromIndex. -/
def StackValue.fromIndex (index : Nat) : StackValue :=
  { index := some index }

/-- StackValue::fromValue. -/
def StackValue.fromValue (value : Nat) : StackValue :=
  { value := some value }

/-- StackValue::hasKnownValue. -/
def StackValue.hasKnownValue (v : StackValue) : Bool :=
  v.value.isSome

/-- StackValue::getKnownValue (`*_value`; only meaningful when present). -/
def StackValue.getKnownValue (v : StackValue) : Nat :=
  v.value.getD 0

/-- StackValue::hasKnownIndex. -/
def StackValue.hasKnownIndex (v : StackValue) : Bool :=
  v.index.isSome

/-- StackValue::getIndex (`*_index`; only meaningful when present). -/
def StackValue.getIndex (v : StackValue) : Nat :=
  v.index.getD 0

/-- StackValue::getChange. -/
def StackValue.getChange (v : StackValue) : Int :=
  v.knownChange

/-- StackValue::getMultiple. -/
def StackValue.getMultiple (v : StackValue) : Nat :=
  v.knownMultiple

/-- StackValue::add: known+known adds the values (unsigned wrap);
self-add of a same-index value adds the multiples; indexed+known adds to
the change; every other combination drops both index and value. -/
def StackValue.add (v w : StackValue) : StackValue :=
  if v.hasKnownValue then
    if w.hasKnownValue then
      { v with value := some ((v.getKnownValue + w.getKnownValue) % U32) }
    else
      { v with index := none, value := none }
  else if v.hasKnownIndex then
    if w.hasKnownIndex && w.getIndex == v.getIndex then
      { v with knownMultiple := (v.knownMultiple + w.knownMultiple) % U32 }
    else if w.hasKnownValue then
      { v with knownChange := v.knownChange + (w.getKnownValue : Int) }
    else
      { v with index := none, value := none }
  else
    { v with index := none, value := none }

/-- StackValue::dec: a known value `> 0` is decremented; otherwise the
value becomes unknown and `_knownChange` is decremented.  Note the source
does not clear `_index` here. -/
def StackValue.dec (v : StackValue) : StackValue :=
  if v.hasKnownValue && v.getKnownValue > 0 then
    { v with value := some (v.getKnownValue - 1) }
  else
    { v with value := none, knownChange := v.knownChange - 1 }

/-- StackValue::sub.  Faithful to the source, including the slip that
`val2` is read from `this` (`getKnownValue()`) instead of from the
argument, so the known/known branch computes `|val1 - val1| = 0`. -/
def StackValue.sub (v w : StackValue) : StackValue :=
  if v.hasKnownValue && w.hasKnownValue then
    let val1 := v.getKnownValue
    let val2 := v.getKnownValue
    { v with value := some (if val1 > val2 then val1 - val2 else val2 - val1) }
  else
    { v with index := none, value := none }

/-- Simulator state (optimization.cpp, class StackSimulator): the abstract
stack `values` (front = vector index 0, last = `back()`), the queue of
values pushed to the stack bottom, the pop high-water mark and the I/O
flag. -/
structure StackSimulator where
  origIndex : Nat
  maxPopped : Nat := 0
  hadIo : Bool := false
  bottomQueued : List StackValue := []
  values : List StackValue
  deriving DecidableEq

/-- StackSimulator::StackSimulator: the entry top of stack is seeded with
index 0 and known value equal to the chunk's own index. -/
def StackSimulator.init (index : Nat) : StackSimulator :=
  { origIndex := index, values := [StackValue.mkIndexValue 0 index] }

/-- StackSimulator::doPop: pop the back of the abstract stack, or
fabricate the `++_maxPopped`-th value from below the entry level. -/
def StackSimulator.doPop (s : StackSimulator) : StackValue × StackSimulator :=
  match s.values.getLast? with
  | some v => (v, { s with values := s.values.dropLast })
  | none => (StackValue.fromIndex (s.maxPopped + 1), { s with maxPopped := s.maxPopped + 1 })

/-- StackSimulator::doPush. -/
def StackSimulator.doPush (s : StackSimulator) (v : StackValue) : StackSimulator :=
  { s with values := s.values ++ [v] }

/-- StackSimulator::add. -/
def StackSimulator.add (s : StackSimulator) : StackSimulator :=
  let (val1, s1) := s.doPop
  let (val2, s2) := s1.doPop
  s2.doPush (val1.add val2)

/-- StackSimulator::bottom. -/
def StackSimulator.bottom (s : StackSimulator) : StackSimulator :=
  let (v, s1) := s.doPop
  { s1 with bottomQueued := s1.bottomQueued ++ [v] }

/-- StackSimulator::dec. -/
def StackSimulator.dec (s : StackSimulator) : StackSimulator :=
  let (v, s1) := s.doPop
  s1.doPush v.dec

/-- StackSimulator::dup. -/
def StackSimulator.dup (s : StackSimulator) : StackSimulator :=
  let (v, s1) := s.doPop
  (s1.doPush v).doPush v

/-- StackSimulator::inc. -/
def StackSimulator.inc (s : StackSimulator) : StackSimulator :=
  let (v, s1) := s.doPop
  s1.doPush (v.add (StackValue.fromValue 1))

/-- StackSimulator::input: push a default (opaque) value, record I/O. -/
def StackSimulator.input (s : StackSimulator) : StackSimulator :=
  { s.doPush {} with hadIo := true }

/-- StackSimulator::output: pop, record I/O. -/
def StackSimulator.output (s : StackSimulator) : StackSimulator :=
  { (s.doPop).2 with hadIo := true }

/-- StackSimulator::pop. -/
def StackSimulator.pop (s : StackSimulator) : StackSimulator :=
  (s.doPop).2

/-- StackSimulator::sub. -/
def StackSimulator.sub (s : StackSimulator) : StackSimulator :=
  let (val1, s1) := s.doPop
  let (val2, s2) := s1.doPop
  s2.doPush (val1.sub val2)

/-- StackSimulator::swap. -/
def StackSimulator.swap (s : StackSimulator) : StackSimulator :=
  let (val1, s1) := s.doPop
  let (val2, s2) := s1.doPop
  (s2.doPush val1).doPush val2

/-- StackSimulator::getStackTop: pop then push back (which mutates the
state when the abstract stack was empty), returning the known value of
the top if any. -/
def StackSimulator.getStackTop (s : StackSimulator) : Option Nat × StackSimulator :=
  let (v, s1) := s.doPop
  (v.value, s1.doPush v)

/-- StackSimulator::allKnownValues. -/
def StackSimulator.allKnownValues (values : List StackValue) : Bool :=
  values.all (fun val => val.hasKnownValue)

/-- StackSimulator::canOptimize. -/
def StackSimulator.canOptimize (s : StackSimulator) : Bool :=
  !s.hadIo &&
  s.maxPopped < 2 &&
  StackSimulator.allKnownValues s.bottomQueued &&
  s.values.length ≤ 2 &&
  1 ≤ s.values.length &&
  (s.values.getLastD default).hasKnownValue &&
  (s.values.length == 1 || (s.values.headD default).hasKnownValue ||
    ((s.values.headD default).hasKnownIndex && (s.values.headD default).getIndex == 1))

/-- The PushValueToBottom commands emitted first by
StackSimulator::getCommands. -/
def StackSimulator.bottomCommands (s : StackSimulator) : List Command :=
  s.bottomQueued.map (fun bottomVal => ⟨.PushValueToBottom, (bottomVal.getKnownValue : Int)⟩)

/-- The SetTop command emitted by StackSimulator::getCommands when the
final top differs from the chunk's own index. -/
def StackSimulator.setTopCommands (s : StackSimulator) : List Command :=
  if s.origIndex ≠ (s.values.getLastD default).getKnownValue then
    [⟨.SetTop, ((s.values.getLastD default).getKnownValue : Int)⟩]
  else
    []

/-- The trailing command emitted by StackSimulator::getCommands for the
second stack slot (or for a net pop). -/
def StackSimulator.secondCommands (s : StackSimulator) : List Command :=
  if s.values.length > 1 then
    if (s.values.headD default).hasKnownValue then
      if s.maxPopped == 0 then
        [⟨.PushSecondValue, ((s.values.headD default).getKnownValue : Int)⟩]
      else
        [⟨.SetSecondValue, ((s.values.headD default).getKnownValue : Int)⟩]
    else if (s.values.headD default).getMultiple > 1 then
      [⟨.MultiplySecond, ((s.values.headD default).getMultiple : Int)⟩]
    else if (s.values.headD default).getChange ≠ 0 then
      [⟨.AddToSecond, (s.values.headD default).getChange⟩]
    else
      []
  else if s.maxPopped == 1 then
    [⟨.PopSecondValue, 0⟩]
  else
    []

/-- StackSimulator::getCommands: when `canOptimize`, the condensed
command sequence appended in source order (bottom pushes, then the
optional SetTop, then the second-slot command). -/
def StackSimulator.getCommands (s : StackSimulator) : Option (List Command) :=
  if !s.canOptimize then
    none
  else
    some (s.bottomCommands ++ s.setTopCommands ++ s.secondCommands)

/-- The per-command loop of optimizeChunk (optimization.cpp).  Returns the
final simulator state and the `canOptimize` flag; `Jump` breaks out of the
loop with the flag still true, the four unsupported primitives break out
with it false.  The extended commands hit `assert(false)` in the source,
modelled as `none`. -/
def optimizeChunkLoop (s : StackSimulator) : List Command → Option (StackSimulator × Bool)
  | [] => some (s, true)
  | cmd :: rest =>
    match cmd.type with
    | .Add => optimizeChunkLoop s.add rest
    | .Bottom => optimizeChunkLoop s.bottom rest
    | .Output => optimizeChunkLoop s.output rest
    | .Pop => optimizeChunkLoop s.pop rest
    | .Dec => optimizeChunkLoop s.dec rest
    | .Dup => optimizeChunkLoop s.dup rest
    | .Inc => optimizeChunkLoop s.inc rest
    | .Input => optimizeChunkLoop s.input rest
    | .Jump => some (s, true)
    | .Nop => optimizeChunkLoop s rest
    | .Sub => optimizeChunkLoop s.sub rest
    | .Swap => optimizeChunkLoop s.swap rest
    | .Exit | .Randomize | .IgnoreFirst | .IgnoreVisited => some (s, false)
    | _ => none

/-- The `if (stackTop) optimized.nextChunk = *stackTop` step of
optimizeChunk. -/
def withNextFromTop (chunk : Chunk) : Option Nat → Chunk
  | some t => { chunk with nextChunk := some t }
  | none => chunk

/-- optimizeChunk (optimization.cpp): run the simulator over the chunk's
commands; on success record the known top as `nextChunk` and, when
command synthesis is permitted, replace the command list.  `getStackTop`
is called before `getCommands` and its state mutation is visible to it. -/
def optimizeChunk (chunk : Chunk) (index : Nat) : Option Chunk :=
  match optimizeChunkLoop (StackSimulator.init index) chunk.commands with
  | none => none
  | some (stack, canOpt) =>
    if canOpt then
      match ((stack.getStackTop).2).getCommands with
      | some optimizedCommands =>
        some { withNextFromTop chunk (stack.getStackTop).1 with commands := optimizedCommands }
      | none => some (withNextFromTop chunk (stack.getStackTop).1)
    else
      some chunk

/-- The indexed loop of optimizeChunks, starting at index `i`. -/
def optimizeChunksAux (i : Nat) : List Chunk → Option (List Chunk)
  | [] => some []
  | chunk :: rest =>
    match optimizeChunk chunk i, optimizeChunksAux (i + 1) rest with
    | some optimized, some optimizedRest => some (optimized :: optimizedRest)
    | _, _ => none

/-- optimizeChunks (optimization.cpp): optimize every chunk at its own
index. -/
def optimizeChunks (chunks : List Chunk) : Option (List Chunk) :=
  optimizeChunksAux 0 chunks

/-- The command set a chunk must be drawn from to be fused by
optimizeChunkInProgram (optimization.cpp). -/
def fusableTypes : List CommandType :=
  [.AddToSecond, .MultiplySecond, .PushSecondValue, .SetSecondValue, .SetTop]

/-- chunkOnlyHas (optimization.cpp): every command of the chunk is drawn
from the given command set. -/
def chunkOnlyHas (chunk : Chunk) (commands : List CommandType) : Bool :=
  chunk.commands.all (fun cmd => commands.contains cmd.type)

/-- The right-to-left scan of condenseStackTops (optimization.cpp): the
argument is the command list already reversed; `foundStackTop` records
whether a SetTop has been seen (such later SetTops are erased). -/
def condenseRev (foundStackTop : Bool) : List Command → List Command
  | [] => []
  | cmd :: rest =>
    if cmd.type == CommandType.SetTop then
      if foundStackTop then condenseRev true rest
      else cmd :: condenseRev true rest
    else
      cmd :: condenseRev foundStackTop rest

/-- condenseStackTops (optimization.cpp): keep only the right-most SetTop
of the command list, erasing all earlier ones. -/
def condenseStackTops (commands : List Command) : List Command :=
  (condenseRev false commands.reverse).reverse

/-- The undefined behaviors the fusion loop of optimizeChunkInProgram can
reach, plus the fuel-exhaustion artifact of the fuel-indexed model. -/
inductive FuseErr where
  /-- `chunks[index]` was read with `index` past the end of the vector. -/
  | outOfRange
  /-- `*optimizedChunk.nextChunk` dereferenced an empty optional. -/
  | emptyNext
  /-- the fuel ran out; never happens for fuel > number of chunks. -/
  | fuelOut
  deriving DecidableEq

/-- The while loop of optimizeChunkInProgram (optimization.cpp), with an
explicit fuel so that the possibly-cyclic chase of `nextChunk` links is a
total function.  `toOptimize` is always the chunk fetched at `index`. -/
def fuseLoop (chunks : List Chunk) (originalChunk : Chunk) :
    Nat → Chunk → Chunk → Nat → List Nat → Except FuseErr Chunk
  | 0, _, _, _, _ => .error .fuelOut
  | fuel + 1, optimizedChunk, toOptimize, index, visited =>
    if chunkOnlyHas toOptimize fusableTypes then
      if index ∈ visited then
        .ok originalChunk
      else
        match toOptimize.nextChunk with
        | none => .error .emptyNext
        | some next =>
          match chunks.get? next with
          | none => .error .outOfRange
          | some fetched =>
            fuseLoop chunks originalChunk fuel
              { optimizedChunk with
                commands := optimizedChunk.commands ++ toOptimize.commands,
                nextChunk := some next }
              fetched next (index :: visited)
    else
      if optimizedChunk.commands.isEmpty then
        .ok originalChunk
      else
        .ok { optimizedChunk with commands := condenseStackTops optimizedChunk.commands }

/-- optimizeChunkInProgram (optimization.cpp): fuse the chain of fusable
chunks starting at `index`.  `chunks.length + 1` fuel always suffices
(see the fuel-stability theorem below). -/
def optimizeChunkInProgram (chunks : List Chunk) (index : Nat) : Except FuseErr Chunk :=
  match chunks.get? index with
  | none => .error .outOfRange
  | some originalChunk =>
    fuseLoop chunks originalChunk (chunks.length + 1) {} originalChunk index []

/-- optimizeProgram (optimization.cpp): run the fusion pass on every
chunk index. -/
def optimizeProgram (chunks : List Chunk) : List (Except FuseErr Chunk) :=
  (List.range chunks.length).map (optimizeChunkInProgram chunks)

/-- Number of unvisited valid chunk indices; the decreasing measure of
the fusion loop. -/
def unvisitedCount (n : Nat) (visited : List Nat) : Nat :=
  ((Finset.range n).filter (fun i => i ∉ visited)).card

/-- Count of SetTop commands in a command list. -/
def countSetTop (commands : List Command) : Nat :=
  (commands.filter (fun cmd => cmd.type == CommandType.SetTop)).length

/-- COMMANDS_PER_CHUNK (inc/xrf-chunk.hpp). -/
def COMMANDS_PER_CHUNK : Nat := 5

/-- FileReader (file-reader.cpp): the not-yet-consumed input plus the
line/column of the last-read character.  Construction initializes
`_line = 1`, `_col = 0`. -/
structure FileReader where
  input : List Char
  line : Nat
  col : Nat
  deriving DecidableEq

/-- FileReader::read: consume one character, updating line/column; `none`
at end of input.  The attached invariant (consuming a character shrinks
the input by one; reading nothing leaves the reader unchanged) is what
makes the parser loops below terminate. -/
def FileReader.read (f : FileReader) :
    { r : Option Char × FileReader //
      (r.2).input.length + (if (r.1).isSome then 1 else 0) = f.input.length ∧
      (r.1 = none → r.2 = f) } :=
  match h : f.input with
  | [] => ⟨(none, f), by simp [h]⟩
  | c :: rest =>
    if c = '\n' then
      ⟨(some c, ⟨rest, f.line + 1, 0⟩), by simp [h]⟩
    else
      ⟨(some c, ⟨rest, f.line, f.col + 1⟩), by simp [h]⟩

/-- std::isspace on the ASCII whitespace characters, as applied by the
parser to each read character. -/
def isSpaceChar (c : Char) : Bool :=
  [9, 10, 11, 12, 13, 32].contains c.toNat

/-- The parser's character-to-command table (the switch in parseChunk,
parser.cpp): hex digits `0`–`F` map to the sixteen primitives. -/
def commandOfChar (c : Char) : Option CommandType :=
  if c = '0' then some .Input
  else if c = '1' then some .Output
  else if c = '2' then some .Pop
  else if c = '3' then some .Dup
  else if c = '4' then some .Swap
  else if c = '5' then some .Inc
  else if c = '6' then some .Dec
  else if c = '7' then some .Add
  else if c = '8' then some .IgnoreFirst
  else if c = '9' then some .Bottom
  else if c = 'A' then some .Jump
  else if c = 'B' then some .Exit
  else if c = 'C' then some .IgnoreVisited
  else if c = 'D' then some .Randomize
  else if c = 'E' then some .Sub
  else if c = 'F' then some .Nop
  else none

/-- A parser diagnostic: message plus the line/column it was raised at
(parser.hpp, struct ErrorMsg). -/
structure ErrorMsg where
  msg : String
  line : Nat
  col : Nat
  deriving DecidableEq

/-- The message for an invalid command character. -/
def invalidCommandMsg (c : Char) : String :=
  "Invalid command character: ".push c

/-- The message for a chunk shorter than five commands. -/
def notEnoughMsg : String :=
  "Chunk doesn\x27t have enough commands."

/-- The message for a chunk longer than five commands. -/
def tooManyMsg : String :=
  "Chunk has too many commands."

/-- The character loop of parseChunk (parser.cpp): starting from the
already-read character `cur`, accumulate commands (or invalid-character
diagnostics) until whitespace or end of input.  The result carries the
invariant that the loop only consumes input. -/
def parseChunkLoop (f : FileReader) (cur : Option Char)
    (cmds : List Command) (errors : List ErrorMsg) :
    { res : FileReader × List Command × List ErrorMsg //
      (res.1).input.length ≤ f.input.length } :=
  match cur with
  | none => ⟨(f, cmds, errors), le_refl _⟩
  | some c =>
    if isSpaceChar c then
      ⟨(f, cmds, errors), le_refl _⟩
    else
      let step : List Command × List ErrorMsg :=
        match commandOfChar c with
        | some t => (cmds ++ [⟨t, 0⟩], errors)
        | none => (cmds, errors ++ [⟨invalidCommandMsg c, f.line, f.col⟩])
      let r := f.read
      let rest := parseChunkLoop (r.val).2 (r.val).1 step.1 step.2
      ⟨rest.val, by
        have h := r.property.1
        have h2 := rest.property
        omega⟩
termination_by f.input.length + (if cur.isSome then 1 else 0)
decreasing_by
  have h := (f.read).property.1
  simp only [Option.isSome_some, if_true]
  omega

/-- parseChunk (parser.cpp): parse one whitespace-delimited chunk whose
first character `chunkChar` has already been read; push the chunk when it
has exactly COMMANDS_PER_CHUNK commands, a diagnostic otherwise. -/
def parseChunk (f : FileReader) (chunkChar : Char)
    (chunks : List Chunk) (errors : List ErrorMsg) :
    { res : FileReader × List Chunk × List ErrorMsg //
      (res.1).input.length ≤ f.input.length } :=
  let line := f.line
  let col := f.col
  let r := parseChunkLoop f (some chunkChar) [] errors
  let f1 := (r.val).1
  let cmds := (r.val).2.1
  let errs := (r.val).2.2
  if cmds.length < COMMANDS_PER_CHUNK then
    ⟨(f1, chunks, errs ++ [⟨notEnoughMsg, line, col⟩]), r.property⟩
  else if cmds.length > COMMANDS_PER_CHUNK then
    ⟨(f1, chunks, errs ++ [⟨tooManyMsg, line, col⟩]), r.property⟩
  else
    ⟨(f1, chunks ++ [{ commands := cmds, line := line, col := col }], errs), r.property⟩

/-- The top-level read loop of parseXrf (parser.cpp): skip whitespace,
hand every other character to parseChunk as the start of a chunk. -/
def parseLoop (f : FileReader) (cur : Option Char)
    (chunks : List Chunk) (errors : List ErrorMsg) :
    List Chunk × List ErrorMsg :=
  match cur with
  | none => (chunks, errors)
  | some c =>
    if ¬ isSpaceChar c then
      let r := parseChunk f c chunks errors
      let r2 := ((r.val).1).read
      parseLoop ((r2.val).2) ((r2.val).1) ((r.val).2.1) ((r.val).2.2)
    else
      let r2 := f.read
      parseLoop ((r2.val).2) ((r2.val).1) chunks errors
termination_by f.input.length + (if cur.isSome then 1 else 0)
decreasing_by
  · have h := (parseChunk f c chunks errors).property
    have h2 := ((((parseChunk f c chunks errors).val).1).read).property.1
    simp only [Option.isSome_some, if_true]
    omega
  · have h := (f.read).property.1
    simp only [Option.isSome_some, if_true]
    omega

/-- parseXrf (parser.cpp): parse a whole input, returning the diagnostics
when any were raised and the chunk list otherwise. -/
def parseXrf (input : List Char) : List ErrorMsg ⊕ List Chunk :=
  let f : FileReader := ⟨input, 1, 0⟩
  let r := f.read
  let res := parseLoop ((r.val).2) ((r.val).1) [] []
  if res.2.isEmpty then Sum.inr res.1 else Sum.inl res.2

/-- STACK_SIZE (codegen.cpp): number of 32-bit cells of the ring stack. -/
def STACK_SIZE : Nat := 65536

/-- STACK_MASK (codegen.cpp): ring indices are ANDed with this mask. -/
def STACK_MASK : Nat := 65535

/-- The machine state the generated LLVM code operates on (codegen.cpp):
the `stack` global of STACK_SIZE 32-bit cells, the `stack_top` and
`stack_bottom` ring indices, and the hoisted `top_value` scalar. -/
structure GenState where
  stack : Nat → Nat
  stackTop : Nat
  stackBottom : Nat
  topValue : Nat

/-- generatePushSecondValue (codegen.cpp): store `val` at
`stack[stack_top]`, then `stack_top ← (stack_top + 1) AND STACK_MASK`
(for indices below STACK_SIZE the AND is reduction mod STACK_SIZE).
`top_value` is untouched, so `val` lands below the logical top. -/
def generatePushSecondValue (s : GenState) (val : Nat) : GenState :=
  { s with
    stack := Function.update s.stack s.stackTop val,
    stackTop := (s.stackTop + 1) % STACK_SIZE }

/-- The ring index the generated code reads for the second stack slot:
`(stack_top - 1) AND STACK_MASK` in 64-bit arithmetic, which for
`stack_top < STACK_SIZE` equals adding STACK_MASK mod STACK_SIZE. -/
def secondSlotIndex (stackTop : Nat) : Nat :=
  (stackTop + STACK_MASK) % STACK_SIZE

/-- Modelled from the spec: the concrete XRF semantics of the
straight-line primitive commands, as given by the opcode table of the
specification (and realized by the code generator, which the repository
contains only as LLVM-IR emission).  The stack is a list with the head
as top; values are 32-bit.  I/O commands, the chunk-control commands
(`IgnoreFirst`, `IgnoreVisited`, `Exit`, `Randomize`), pop on an empty
stack, and the extended commands are outside the modelled fragment and
yield `none`. -/
def xrfStep (cmd : Command) (stack : List Nat) : Option (List Nat) :=
  match cmd.type, stack with
  | .Pop, _ :: rest => some rest
  | .Dup, a :: rest => some (a :: a :: rest)
  | .Swap, a :: b :: rest => some (b :: a :: rest)
  | .Inc, a :: rest => some ((a + 1) % U32 :: rest)
  | .Dec, a :: rest => some ((a + U32 - 1) % U32 :: rest)
  | .Add, a :: b :: rest => some ((a + b) % U32 :: rest)
  | .Sub, a :: b :: rest => some ((if a > b then a - b else b - a) :: rest)
  | .Bottom, a :: rest => some (rest ++ [a])
  | .Nop, st => some st
  | _, _ => none

/-- Modelled from the spec: run a chunk's commands on a concrete stack;
`Jump` ends the chunk immediately. -/
def xrfRunChunk : List Command → List Nat → Option (List Nat)
  | [], stack => some stack
  | cmd :: rest, stack =>
    if cmd.type == CommandType.Jump then
      some stack
    else
      match xrfStep cmd stack with
      | some stack2 => xrfRunChunk rest stack2
      | none => none

/-! ## Theorems -/

/-- With nothing visited, every valid index is unvisited. -/
theorem unvisitedCount_nil (n : Nat) : unvisitedCount n [] = n := by
  simp [unvisitedCount]

/-- Visiting an unvisited valid index strictly shrinks the unvisited
count: the decreasing measure of the fusion loop. -/
theorem unvisitedCount_cons_lt (n index : Nat) (visited : List Nat)
    (h1 : index < n) (h2 : index ∉ visited) :
    unvisitedCount n (index :: visited) < unvisitedCount n visited := by
  have hmem : index ∈ (Finset.range n).filter (fun i => i ∉ visited) := by
    simp [Finset.mem_filter, Finset.mem_range, h1, h2]
  have heq : (Finset.range n).filter (fun i => i ∉ index :: visited)
      = ((Finset.range n).filter (fun i => i ∉ visited)).erase index := by
    ext x
    simp only [Finset.mem_filter, Finset.mem_erase, Finset.mem_range, List.mem_cons]
    tauto
  have hpos : 0 < ((Finset.range n).filter (fun i => i ∉ visited)).card :=
    Finset.card_pos.mpr ⟨index, hmem⟩
  rw [unvisitedCount, unvisitedCount, heq, Finset.card_erase_of_mem hmem]
  omega

/-- countSetTop is additive over append. -/
theorem countSetTop_append (l1 l2 : List Command) :
    countSetTop (l1 ++ l2) = countSetTop l1 + countSetTop l2 := by
  simp [countSetTop, List.filter_append]

/-- countSetTop is invariant under reversal. -/
theorem countSetTop_reverse (l : List Command) :
    countSetTop l.reverse = countSetTop l := by
  simp [countSetTop, List.filter_reverse]

/-- After a SetTop was found, the scan erases every further SetTop. -/
theorem condenseRev_true_filter (l : List Command) :
    condenseRev true l = l.filter (fun cmd => !(cmd.type == CommandType.SetTop)) := by
  induction l with
  | nil => rfl
  | cons cmd rest ih =>
    by_cases hst : cmd.type == CommandType.SetTop
    · simp [condenseRev, hst, ih]
    · simp [condenseRev, hst, ih]

/-- No SetTop survives the scan once one was found. -/
theorem countSetTop_condenseRev_true (l : List Command) :
    countSetTop (condenseRev true l) = 0 := by
  rw [condenseRev_true_filter]
  simp only [countSetTop, List.length_eq_zero, List.filter_eq_nil_iff]
  intro cmd hmem
  have := (List.mem_filter.mp hmem).2
  simp at this ⊢
  exact this

/-- The right-to-left scan started fresh keeps at most one SetTop. -/
theorem countSetTop_condenseRev_false (l : List Command) :
    countSetTop (condenseRev false l) ≤ 1 := by
  induction l with
  | nil => simp [condenseRev, countSetTop]
  | cons cmd rest ih =>
    by_cases hst : cmd.type == CommandType.SetTop
    · have h0 := countSetTop_condenseRev_true rest
      have hstep : condenseRev false (cmd :: rest) = cmd :: condenseRev true rest := by
        simp [condenseRev, hst]
      have hcount : countSetTop (cmd :: condenseRev true rest)
          = 1 + countSetTop (condenseRev true rest) := by
        simp [countSetTop, List.filter_cons, hst]
        omega
      rw [hstep, hcount]
      omega
    · have hstep : condenseRev false (cmd :: rest) = cmd :: condenseRev false rest := by
        simp [condenseRev, hst]
      have hcount : countSetTop (cmd :: condenseRev false rest)
          = countSetTop (condenseRev false rest) := by
        simp [countSetTop, List.filter_cons, hst]
      rw [hstep, hcount]
      exact ih

/-- condenseStackTops leaves at most one SetTop. -/
theorem countSetTop_condenseStackTops (l : List Command) :
    countSetTop (condenseStackTops l) ≤ 1 := by
  calc countSetTop (condenseStackTops l)
      = countSetTop (condenseRev false l.reverse) := countSetTop_reverse _
    _ ≤ 1 := countSetTop_condenseRev_false _

/-- The condensation scan passes SetTop-free prefixes through. -/
theorem condenseRev_append_free (l rest : List Command)
    (h : ∀ cmd ∈ l, cmd.type ≠ CommandType.SetTop) :
    ∀ found, condenseRev found (l ++ rest) = l ++ condenseRev found rest := by
  induction l with
  | nil => intro found; simp
  | cons cmd l2 ih =>
    intro found
    have hcmd : (cmd.type == CommandType.SetTop) = false := by
      have := h cmd (List.mem_cons_self _ _)
      simp [this]
    have ih2 := ih (fun c hc => h c (List.mem_cons_of_mem _ hc)) found
    simp [condenseRev, hcmd, ih2]

/-- Primitive command tags are never in the fusable set. -/
theorem primitive_not_fusable (t : CommandType) (h : t.isPrimitive = true) :
    fusableTypes.contains t = false := by
  cases t <;> first | rfl | cases h

/-- An all-primitive command list contains no SetTop. -/
theorem countSetTop_of_primitive (l : List Command)
    (h : ∀ cmd ∈ l, cmd.type.isPrimitive = true) : countSetTop l = 0 := by
  simp only [countSetTop, List.length_eq_zero, List.filter_eq_nil_iff]
  intro cmd hmem
  have hp := h cmd hmem
  simp only [beq_iff_eq]
  intro hst
  rw [hst] at hp
  cases hp

/-- withNextFromTop never changes the command list. -/
theorem withNextFromTop_commands (c : Chunk) (o : Option Nat) :
    (withNextFromTop c o).commands = c.commands := by
  cases o <;> rfl

/-- getCommands succeeds only when canOptimize holds. -/
theorem getCommands_canOptimize (s : StackSimulator) (r : List Command)
    (h : s.getCommands = some r) : s.canOptimize = true := by
  by_cases hc : s.canOptimize = true
  · exact hc
  · rw [StackSimulator.getCommands] at h
    rw [Bool.not_eq_true] at hc
    rw [hc] at h
    cases h

/-- canOptimize requires the final abstract top to be a known value. -/
theorem canOptimize_back_known (s : StackSimulator) (h : s.canOptimize = true) :
    (s.values.getLastD default).hasKnownValue = true := by
  rw [StackSimulator.canOptimize] at h
  repeat rw [Bool.and_eq_true] at h
  exact h.1.2

/-- When getCommands succeeds on the state getStackTop leaves behind,
getStackTop returned a known top value (which optimizeChunk then stores
into nextChunk). -/
theorem getStackTop_some_of_getCommands (s : StackSimulator) (r : List Command)
    (h : ((s.getStackTop).2).getCommands = some r) :
    ∃ t, (s.getStackTop).1 = some t := by
  have hc := getCommands_canOptimize _ _ h
  have hback := canOptimize_back_known _ hc
  have h2 : (s.getStackTop).2 = ((s.doPop).2).doPush (s.doPop).1 := rfl
  have h1 : (s.getStackTop).1 = ((s.doPop).1).value := rfl
  rw [h2] at hback
  have hlast : ((((s.doPop).2).doPush (s.doPop).1).values).getLastD default = (s.doPop).1 := by
    simp [StackSimulator.doPush]
  rw [hlast] at hback
  rw [h1]
  rw [StackValue.hasKnownValue, Option.isSome_iff_exists] at hback
  exact hback

/-- The simulation loop reports canOptimize = false only when one of the
four unsupported primitives occurs in the command list. -/
theorem optimizeChunkLoop_false_abort :
    ∀ (cmds : List Command) (s st : StackSimulator),
      optimizeChunkLoop s cmds = some (st, false) →
      ∃ cmd ∈ cmds, cmd.type = CommandType.Exit ∨ cmd.type = CommandType.Randomize ∨
        cmd.type = CommandType.IgnoreFirst ∨ cmd.type = CommandType.IgnoreVisited := by
  intro cmds
  induction cmds with
  | nil =>
    intro s st h
    simp [optimizeChunkLoop] at h
  | cons cmd rest ih =>
    intro s st h
    simp only [optimizeChunkLoop] at h
    cases hc : cmd.type
    all_goals simp only [hc] at h
    all_goals try (simp at h; done)
    all_goals try (refine ⟨cmd, List.mem_cons_self _ _, ?_⟩; simp [hc]; done)
    all_goals (obtain ⟨c2, hm, hty⟩ := ih _ _ h; exact ⟨c2, List.mem_cons_of_mem _ hm, hty⟩)

/-- A chunk whose optimized form is fusable got its nextChunk set: the
chunk optimizer only rewrites the command list when the final symbolic
top is known, and then it also records that top as the successor. -/
theorem optimizeChunk_fusable_next (c : Chunk) (i : Nat) (out : Chunk)
    (hprim : ∀ cmd ∈ c.commands, cmd.type.isPrimitive = true)
    (hopt : optimizeChunk c i = some out)
    (hfus : chunkOnlyHas out fusableTypes = true) :
    out.nextChunk.isSome = true := by
  cases hloop : optimizeChunkLoop (StackSimulator.init i) c.commands with
  | none =>
    rw [optimizeChunk, hloop] at hopt
    cases hopt
  | some p =>
    obtain ⟨st, canOpt⟩ := p
    rw [optimizeChunk, hloop] at hopt
    cases canOpt with
    | false =>
      simp only [Bool.false_eq_true, if_false, Option.some.injEq] at hopt
      obtain ⟨cmd, hmem, hty⟩ := optimizeChunkLoop_false_abort c.commands _ _ hloop
      have hcont : fusableTypes.contains cmd.type = true := by
        rw [chunkOnlyHas, List.all_eq_true] at hfus
        have := hfus cmd (by rw [← hopt]; exact hmem)
        exact this
      exfalso
      rcases hty with h1 | h1 | h1 | h1 <;> rw [h1] at hcont <;> exact absurd hcont (by decide)
    | true =>
      cases hgc : ((st.getStackTop).2).getCommands with
      | some cmds =>
        simp only [if_true, hgc, Option.some.injEq] at hopt
        obtain ⟨t, ht⟩ := getStackTop_some_of_getCommands st cmds hgc
        rw [← hopt]
        simp [withNextFromTop, ht]
      | none =>
        simp only [if_true, hgc, Option.some.injEq] at hopt
        have houtcmds : out.commands = c.commands := by
          rw [← hopt, withNextFromTop_commands]
        have hemp : c.commands = [] := by
          by_contra hne
          obtain ⟨cmd, hmem⟩ := List.exists_mem_of_ne_nil _ hne
          have hp := hprim cmd hmem
          rw [chunkOnlyHas, List.all_eq_true] at hfus
          have hcont := hfus cmd (by rw [houtcmds]; exact hmem)
          rw [primitive_not_fusable _ hp] at hcont
          cases hcont
        rw [hemp] at hloop
        have hst : st = StackSimulator.init i := by
          simp [optimizeChunkLoop] at hloop
          exact hloop.symm
        rw [← hopt, hst]
        rfl

/-- Every chunk of a successful optimizeChunks output is the image of a
member of the input under optimizeChunk at some index. -/
theorem optimizeChunksAux_mem :
    ∀ (cs : List Chunk) (i : Nat) (out : List Chunk),
      optimizeChunksAux i cs = some out →
      ∀ c ∈ out, ∃ j c0, c0 ∈ cs ∧ optimizeChunk c0 j = some c := by
  intro cs
  induction cs with
  | nil =>
    intro i out h c hc
    simp [optimizeChunksAux] at h
    subst h
    cases hc
  | cons c0 rest ih =>
    intro i out h c hc
    simp only [optimizeChunksAux] at h
    split at h
    · rename_i optimized optimizedRest heq1 heq2
      cases h
      rcases hc with _ | _
      · exact ⟨i, c0, List.mem_cons_self _ _, heq1⟩
      · rename_i hmem
        obtain ⟨j, c1, hm, hopt⟩ := ih (i + 1) optimizedRest heq2 c hmem
        exact ⟨j, c1, List.mem_cons_of_mem _ hm, hopt⟩
    · cases h

/-- Every chunk the fusion loop emits is either the original chunk or
has a condensed command list. -/
theorem fuseLoop_ok_shape (chunks : List Chunk) (orig : Chunk) :
    ∀ fuel acc toOpt index visited c,
      fuseLoop chunks orig fuel acc toOpt index visited = .ok c →
      c = orig ∨ ∃ l, c.commands = condenseStackTops l := by
  intro fuel
  induction fuel with
  | zero =>
    intro acc toOpt index visited c h
    cases h
  | succ f ih =>
    intro acc toOpt index visited c h
    simp only [fuseLoop] at h
    by_cases hfus : chunkOnlyHas toOpt fusableTypes = true
    · rw [if_pos hfus] at h
      by_cases hv : index ∈ visited
      · rw [if_pos hv] at h
        cases h
        exact Or.inl rfl
      · rw [if_neg hv] at h
        split at h
        · cases h
        · split at h
          · cases h
          · exact ih _ _ _ _ _ h
    · rw [if_neg hfus] at h
      split at h
      · cases h
        exact Or.inl rfl
      · cases h
        exact Or.inr ⟨acc.commands, rfl⟩

/-- Under the invariant that every fusable chunk has its successor set,
the fusion loop never dereferences an empty nextChunk. -/
theorem fuseLoop_no_emptyNext (chunks : List Chunk)
    (hinv : ∀ c ∈ chunks, chunkOnlyHas c fusableTypes = true → c.nextChunk.isSome = true) :
    ∀ fuel orig acc toOpt index visited, toOpt ∈ chunks →
      fuseLoop chunks orig fuel acc toOpt index visited ≠ .error .emptyNext := by
  intro fuel
  induction fuel with
  | zero =>
    intro orig acc toOpt index visited _ h
    cases h
  | succ f ih =>
    intro orig acc toOpt index visited hmem h
    simp only [fuseLoop] at h
    by_cases hfus : chunkOnlyHas toOpt fusableTypes = true
    · rw [if_pos hfus] at h
      by_cases hv : index ∈ visited
      · rw [if_pos hv] at h
        cases h
      · rw [if_neg hv] at h
        split at h
        · rename_i hnext
          have := hinv toOpt hmem hfus
          rw [hnext] at this
          cases this
        · rename_i next hnext
          split at h
          · cases h
          · rename_i fetched hget
            exact ih orig _ fetched next (index :: visited) (List.get?_mem hget) h
    · rw [if_neg hfus] at h
      split at h
      · cases h
      · cases h

/-- The bottom-value commands synthesized by getCommands are never
SetTop. -/
theorem countSetTop_bottomCommands (s : StackSimulator) :
    countSetTop s.bottomCommands = 0 := by
  rw [StackSimulator.bottomCommands]
  induction s.bottomQueued with
  | nil => rfl
  | cons v l ih =>
    simp only [List.map_cons]
    simp [countSetTop, List.filter_cons] at ih ⊢

/-- getCommands emits at most one SetTop. -/
theorem countSetTop_getCommands (s : StackSimulator) (r : List Command)
    (h : s.getCommands = some r) : countSetTop r ≤ 1 := by
  rw [StackSimulator.getCommands] at h
  split at h
  · cases h
  · rw [Option.some.injEq] at h
    rw [← h]
    rw [countSetTop_append, countSetTop_append, countSetTop_bottomCommands]
    have h1 : countSetTop s.setTopCommands ≤ 1 := by
      rw [StackSimulator.setTopCommands]
      split <;> simp [countSetTop]
    have h2 : countSetTop s.secondCommands = 0 := by
      rw [StackSimulator.secondCommands]
      repeat' split
      all_goals simp [countSetTop]
    omega

/-- Every chunk produced by the chunk optimizer from an all-primitive
chunk contains at most one SetTop. -/
theorem optimizeChunk_countSetTop (c : Chunk) (i : Nat) (out : Chunk)
    (hprim : ∀ cmd ∈ c.commands, cmd.type.isPrimitive = true)
    (hopt : optimizeChunk c i = some out) :
    countSetTop out.commands ≤ 1 := by
  cases hloop : optimizeChunkLoop (StackSimulator.init i) c.commands with
  | none =>
    rw [optimizeChunk, hloop] at hopt
    cases hopt
  | some p =>
    obtain ⟨st, canOpt⟩ := p
    rw [optimizeChunk, hloop] at hopt
    cases canOpt with
    | false =>
      simp only [Bool.false_eq_true, if_false, Option.some.injEq] at hopt
      rw [← hopt, countSetTop_of_primitive c.commands hprim]
      omega
    | true =>
      cases hgc : ((st.getStackTop).2).getCommands with
      | some cmds =>
        simp only [if_true, hgc, Option.some.injEq] at hopt
        rw [← hopt]
        have := countSetTop_getCommands _ _ hgc
        simpa using this
      | none =>
        simp only [if_true, hgc, Option.some.injEq] at hopt
        rw [← hopt, withNextFromTop_commands, countSetTop_of_primitive c.commands hprim]
        omega

/-- The fusion loop's result does not depend on the fuel once the fuel
exceeds the number of unvisited valid indices: the loop halts within
that many iterations on every input. -/
theorem fuseLoop_fuel_congr (chunks : List Chunk) (orig : Chunk) :
    ∀ fuel1 fuel2 acc toOpt index visited,
      index < chunks.length →
      unvisitedCount chunks.length visited < fuel1 →
      unvisitedCount chunks.length visited < fuel2 →
      fuseLoop chunks orig fuel1 acc toOpt index visited
        = fuseLoop chunks orig fuel2 acc toOpt index visited := by
  intro fuel1
  induction fuel1 with
  | zero =>
    intro fuel2 acc toOpt index visited _ h1 _
    omega
  | succ f1 ih =>
    intro fuel2 acc toOpt index visited hidx h1 h2
    match fuel2 with
    | 0 => omega
    | f2 + 1 =>
      simp only [fuseLoop]
      by_cases hfus : chunkOnlyHas toOpt fusableTypes = true
      · rw [if_pos hfus, if_pos hfus]
        by_cases hv : index ∈ visited
        · rw [if_pos hv, if_pos hv]
        · rw [if_neg hv, if_neg hv]
          split
          · rfl
          · rename_i next hnext
            split
            · rfl
            · rename_i fetched hget
              have hlt : next < chunks.length := (List.get?_eq_some.mp hget).1
              have hdec := unvisitedCount_cons_lt chunks.length index visited hidx hv
              exact ih f2 _ fetched next (index :: visited) hlt (by omega) (by omega)
      · rw [if_neg hfus, if_neg hfus]

/-- C3.  optimizeProgram terminates on every input chunk list and
preserves the number of chunks: the output list has exactly the input's
length, and the fusion loop's result is already stable at the
`chunks.length + 1` fuel that optimizeChunkInProgram uses — larger fuel
never changes it, because the visited set bounds the loop to at most one
iteration per chunk index. -/
theorem optimizeProgram_length_and_fuel_stability (chunks : List Chunk) :
    (optimizeProgram chunks).length = chunks.length ∧
    ∀ orig acc toOpt index fuel,
      index < chunks.length → chunks.length < fuel →
      fuseLoop chunks orig fuel acc toOpt index []
        = fuseLoop chunks orig (chunks.length + 1) acc toOpt index [] := by
  constructor
  · simp [optimizeProgram]
  · intro orig acc toOpt index fuel hidx hfuel
    apply fuseLoop_fuel_congr chunks orig fuel (chunks.length + 1) acc toOpt index [] hidx <;>
      rw [unvisitedCount_nil] <;> omega

/-- C3 witness: a one-chunk program whose single chunk is fusable and
loops back to itself; the loop is stopped by the visited set, and fuel 9
gives the same result as fuel 2. -/
theorem optimizeProgram_length_and_fuel_stability_witness :
    (optimizeProgram [{ commands := [⟨.SetTop, 0⟩], nextChunk := some 0 }]).length = 1 ∧
    fuseLoop [{ commands := [⟨.SetTop, 0⟩], nextChunk := some 0 }]
        { commands := [⟨.SetTop, 0⟩], nextChunk := some 0 } 9 {}
        { commands := [⟨.SetTop, 0⟩], nextChunk := some 0 } 0 []
      = fuseLoop [{ commands := [⟨.SetTop, 0⟩], nextChunk := some 0 }]
          { commands := [⟨.SetTop, 0⟩], nextChunk := some 0 } 2 {}
          { commands := [⟨.SetTop, 0⟩], nextChunk := some 0 } 0 [] :=
  ⟨(optimizeProgram_length_and_fuel_stability _).1,
   (optimizeProgram_length_and_fuel_stability _).2
     { commands := [⟨.SetTop, 0⟩], nextChunk := some 0 } {}
     { commands := [⟨.SetTop, 0⟩], nextChunk := some 0 } 0 9 (by decide) (by decide)⟩

/-- C4.  In every chunk emitted by the full pipeline (optimizeProgram
after optimizeChunks, on raw all-primitive chunks), at most one SetTop
appears; and condensation keeps exactly the right-most SetTop of the
accumulated sequence, deleting all earlier ones while leaving every
other command in place. -/
theorem emitted_chunks_setTop_condensation (cs out : List Chunk)
    (hprim : ∀ c ∈ cs, ∀ cmd ∈ c.commands, cmd.type.isPrimitive = true)
    (hopt : optimizeChunks cs = some out) :
    (∀ r ∈ optimizeProgram out, ∀ c : Chunk, r = .ok c → countSetTop c.commands ≤ 1) ∧
    (∀ (u w : List Command) (k : Int),
      (∀ cmd ∈ w, cmd.type ≠ CommandType.SetTop) →
      condenseStackTops (u ++ ⟨CommandType.SetTop, k⟩ :: w)
        = u.filter (fun cmd => !(cmd.type == CommandType.SetTop))
          ++ ⟨CommandType.SetTop, k⟩ :: w) := by
  constructor
  · intro r hr c hok
    subst hok
    rw [optimizeProgram] at hr
    obtain ⟨i, _, hr2⟩ := List.mem_map.mp hr
    rw [optimizeChunkInProgram] at hr2
    split at hr2
    · cases hr2
    · rename_i orig hget
      rcases fuseLoop_ok_shape out orig _ _ _ _ _ _ hr2 with heq | ⟨l, hl⟩
      · rw [heq]
        obtain ⟨j, c0, hc0, hoc⟩ := optimizeChunksAux_mem cs 0 out hopt orig (List.get?_mem hget)
        exact optimizeChunk_countSetTop c0 j orig (hprim c0 hc0) hoc
      · rw [hl]
        exact countSetTop_condenseStackTops l
  · intro u w k hw
    rw [condenseStackTops, List.reverse_append, List.reverse_cons, List.append_assoc]
    rw [condenseRev_append_free w.reverse _
      (fun c hc => hw c (List.mem_reverse.mp hc)) false]
    have hstep : condenseRev false (⟨CommandType.SetTop, k⟩ :: u.reverse)
        = ⟨CommandType.SetTop, k⟩ :: condenseRev true u.reverse := by
      simp [condenseRev]
    rw [List.singleton_append, hstep, condenseRev_true_filter]
    rw [List.reverse_append, List.reverse_cons, List.reverse_reverse]
    rw [← List.filter_reverse, List.reverse_reverse]
    rw [List.append_assoc, List.singleton_append]

/-- C4 witness: the pipeline on a one-chunk raw program, and the
condensation equation at a concrete sequence with two SetTops. -/
theorem emitted_chunks_setTop_condensation_witness :
    (∀ r ∈ optimizeProgram [{ commands := [], line := 1, col := 1, nextChunk := some 0 }],
      ∀ c : Chunk, r = .ok c → countSetTop c.commands ≤ 1) ∧
    (∀ (u w : List Command) (k : Int),
      (∀ cmd ∈ w, cmd.type ≠ CommandType.SetTop) →
      condenseStackTops (u ++ ⟨CommandType.SetTop, k⟩ :: w)
        = u.filter (fun cmd => !(cmd.type == CommandType.SetTop))
          ++ ⟨CommandType.SetTop, k⟩ :: w) :=
  emitted_chunks_setTop_condensation
    [{ commands := [⟨.Nop, 0⟩, ⟨.Nop, 0⟩, ⟨.Nop, 0⟩, ⟨.Nop, 0⟩, ⟨.Nop, 0⟩], line := 1, col := 1 }]
    [{ commands := [], line := 1, col := 1, nextChunk := some 0 }]
    (by decide) (by decide)

/-- C10.  After optimizeChunks on raw (all-primitive) chunks, every
output chunk whose commands are all fusable — the empty command list
included — has nextChunk set, because commands are only rewritten when
the final symbolic top is known, in which case that top was recorded as
the successor; consequently the fusion loop's unchecked dereference of
nextChunk never hits the empty optional. -/
theorem fusable_chunks_have_next (cs out : List Chunk)
    (hprim : ∀ c ∈ cs, ∀ cmd ∈ c.commands, cmd.type.isPrimitive = true)
    (hopt : optimizeChunks cs = some out) :
    (∀ c ∈ out, chunkOnlyHas c fusableTypes = true → c.nextChunk.isSome = true) ∧
    (∀ index, optimizeChunkInProgram out index ≠ .error .emptyNext) := by
  have hAll : ∀ c ∈ out, chunkOnlyHas c fusableTypes = true → c.nextChunk.isSome = true := by
    intro c hc hfus
    obtain ⟨j, c0, hc0, hoc⟩ := optimizeChunksAux_mem cs 0 out hopt c hc
    exact optimizeChunk_fusable_next c0 j c (hprim c0 hc0) hoc hfus
  refine ⟨hAll, ?_⟩
  intro index
  rw [optimizeChunkInProgram]
  intro hcontra
  split at hcontra
  · cases hcontra
  · rename_i orig hget
    exact fuseLoop_no_emptyNext out hAll (out.length + 1) orig {} orig index []
      (List.get?_mem hget) hcontra

/-- C10 witness: the invariant and the no-empty-dereference property at
the optimized form of a one-chunk all-Nop program. -/
theorem fusable_chunks_have_next_witness :
    (∀ c ∈ [({ commands := [], line := 1, col := 1, nextChunk := some 0 } : Chunk)],
      chunkOnlyHas c fusableTypes = true → c.nextChunk.isSome = true) ∧
    (∀ index,
      optimizeChunkInProgram
          [({ commands := [], line := 1, col := 1, nextChunk := some 0 } : Chunk)] index
        ≠ .error .emptyNext) :=
  fusable_chunks_have_next
    [{ commands := [⟨.Nop, 0⟩, ⟨.Nop, 0⟩, ⟨.Nop, 0⟩, ⟨.Nop, 0⟩, ⟨.Nop, 0⟩], line := 1, col := 1 }]
    [{ commands := [], line := 1, col := 1, nextChunk := some 0 }]
    (by decide) (by decide)

/-- The parser's character table yields only primitive command tags. -/
theorem commandOfChar_primitive (c : Char) (t : CommandType)
    (h : commandOfChar c = some t) : t.isPrimitive = true := by
  rw [commandOfChar] at h
  by_cases h0 : c = '0'
  · rw [if_pos h0] at h; cases h; rfl
  rw [if_neg h0] at h
  by_cases h1 : c = '1'
  · rw [if_pos h1] at h; cases h; rfl
  rw [if_neg h1] at h
  by_cases h2 : c = '2'
  · rw [if_pos h2] at h; cases h; rfl
  rw [if_neg h2] at h
  by_cases h3 : c = '3'
  · rw [if_pos h3] at h; cases h; rfl
  rw [if_neg h3] at h
  by_cases h4 : c = '4'
  · rw [if_pos h4] at h; cases h; rfl
  rw [if_neg h4] at h
  by_cases h5 : c = '5'
  · rw [if_pos h5] at h; cases h; rfl
  rw [if_neg h5] at h
  by_cases h6 : c = '6'
  · rw [if_pos h6] at h; cases h; rfl
  rw [if_neg h6] at h
  by_cases h7 : c = '7'
  · rw [if_pos h7] at h; cases h; rfl
  rw [if_neg h7] at h
  by_cases h8 : c = '8'
  · rw [if_pos h8] at h; cases h; rfl
  rw [if_neg h8] at h
  by_cases h9 : c = '9'
  · rw [if_pos h9] at h; cases h; rfl
  rw [if_neg h9] at h
  by_cases h10 : c = 'A'
  · rw [if_pos h10] at h; cases h; rfl
  rw [if_neg h10] at h
  by_cases h11 : c = 'B'
  · rw [if_pos h11] at h; cases h; rfl
  rw [if_neg h11] at h
  by_cases h12 : c = 'C'
  · rw [if_pos h12] at h; cases h; rfl
  rw [if_neg h12] at h
  by_cases h13 : c = 'D'
  · rw [if_pos h13] at h; cases h; rfl
  rw [if_neg h13] at h
  by_cases h14 : c = 'E'
  · rw [if_pos h14] at h; cases h; rfl
  rw [if_neg h14] at h
  by_cases h15 : c = 'F'
  · rw [if_pos h15] at h; cases h; rfl
  rw [if_neg h15] at h
  cases h

/-- Every command the chunk-character loop appends is primitive. -/
theorem parseChunkLoop_primitive (f : FileReader) (cur : Option Char)
    (cmds : List Command) (errors : List ErrorMsg) :
    (∀ cmd ∈ cmds, cmd.type.isPrimitive = true) →
    ∀ cmd ∈ ((parseChunkLoop f cur cmds errors).val).2.1, cmd.type.isPrimitive = true := by
  induction f, cur, cmds, errors using parseChunkLoop.induct with
  | case1 f cmds errors =>
    intro h
    simpa [parseChunkLoop] using h
  | case2 f cmds errors c hsp =>
    intro h
    simpa [parseChunkLoop, hsp] using h
  | case3 f cmds errors c hsp step r ihA ihB =>
    intro h
    rw [parseChunkLoop, if_neg hsp]
    apply ihB
    cases hcc : commandOfChar c with
    | some t =>
      simp only [hcc]
      intro cmd hmem
      rcases List.mem_append.mp hmem with hold | hnew
      · exact h cmd hold
      · rcases List.mem_singleton.mp hnew with rfl
        exact commandOfChar_primitive c t hcc
    | none =>
      simp only [hcc]
      exact h

/-- Every chunk parseChunk pushes has exactly COMMANDS_PER_CHUNK
primitive commands. -/
theorem parseChunk_wf (f : FileReader) (chunkChar : Char)
    (chunks : List Chunk) (errors : List ErrorMsg) :
    (∀ c ∈ chunks, c.commands.length = COMMANDS_PER_CHUNK ∧
      ∀ cmd ∈ c.commands, cmd.type.isPrimitive = true) →
    ∀ c ∈ ((parseChunk f chunkChar chunks errors).val).2.1,
      c.commands.length = COMMANDS_PER_CHUNK ∧
      ∀ cmd ∈ c.commands, cmd.type.isPrimitive = true := by
  intro h
  simp only [parseChunk]
  split
  · exact h
  · split
    · exact h
    · rename_i hlt hgt
      intro c hc
      rcases List.mem_append.mp hc with hold | hnew
      · exact h c hold
      · rcases List.mem_singleton.mp hnew with rfl
        constructor
        · simp only [not_lt] at hlt hgt
          simp only [COMMANDS_PER_CHUNK] at hlt hgt ⊢
          omega
        · intro cmd hcmd
          exact parseChunkLoop_primitive f (some chunkChar) [] errors (by intro x hx; cases hx)
            cmd hcmd

/-- Every chunk the top-level parse loop accumulates has exactly
COMMANDS_PER_CHUNK primitive commands. -/
theorem parseLoop_wf (f : FileReader) (cur : Option Char)
    (chunks : List Chunk) (errors : List ErrorMsg) :
    (∀ c ∈ chunks, c.commands.length = COMMANDS_PER_CHUNK ∧
      ∀ cmd ∈ c.commands, cmd.type.isPrimitive = true) →
    ∀ c ∈ (parseLoop f cur chunks errors).1,
      c.commands.length = COMMANDS_PER_CHUNK ∧
      ∀ cmd ∈ c.commands, cmd.type.isPrimitive = true := by
  induction f, cur, chunks, errors using parseLoop.induct with
  | case1 f chunks errors =>
    intro h
    simpa [parseLoop] using h
  | case2 f chunks errors c hsp r r2 ih =>
    intro h
    rw [parseLoop, if_pos hsp]
    apply ih
    exact parseChunk_wf f c chunks errors h
  | case3 f chunks errors c hsp r2 ih =>
    intro h
    rw [parseLoop, if_neg hsp]
    exact ih h

/-- C5.  Parser totality: on every input, parseXrf returns either a
non-empty diagnostic list or a chunk list in which every chunk has
exactly five commands, all drawn from the sixteen primitive opcodes
(never an extended one). -/
theorem parseXrf_totality (input : List Char) :
    (∃ e es, parseXrf input = Sum.inl (e :: es)) ∨
    (∃ chunks, parseXrf input = Sum.inr chunks ∧
      ∀ c ∈ chunks, c.commands.length = COMMANDS_PER_CHUNK ∧
        ∀ cmd ∈ c.commands, cmd.type.isPrimitive = true) := by
  rw [parseXrf]
  cases hemp : (parseLoop ((((⟨input, 1, 0⟩ : FileReader)).read).val).2
      ((((⟨input, 1, 0⟩ : FileReader)).read).val).1 [] []).2.isEmpty
  · left
    simp only [hemp, Bool.false_eq_true, if_false]
    rcases hl : (parseLoop ((((⟨input, 1, 0⟩ : FileReader)).read).val).2
        ((((⟨input, 1, 0⟩ : FileReader)).read).val).1 [] []).2 with _ | ⟨e, es⟩
    · rw [hl] at hemp
      cases hemp
    · exact ⟨e, es, rfl⟩
  · right
    simp only [hemp, if_true]
    refine ⟨_, rfl, ?_⟩
    exact parseLoop_wf _ _ [] [] (by intro c hc; cases hc)

/-- C5 witness: the totality disjunction at a concrete input. -/
theorem parseXrf_totality_witness :
    (∃ e es, parseXrf ['0', '1', '2', '3', '4'] = Sum.inl (e :: es)) ∨
    (∃ chunks, parseXrf ['0', '1', '2', '3', '4'] = Sum.inr chunks ∧
      ∀ c ∈ chunks, c.commands.length = COMMANDS_PER_CHUNK ∧
        ∀ cmd ∈ c.commands, cmd.type.isPrimitive = true) :=
  parseXrf_totality ['0', '1', '2', '3', '4']

/-- C1.  Successor soundness fails on the code: for the raw chunk
`[Dup, Dec, Sub, Nop, Nop]` at index 2, the chunk optimizer records
`nextChunk = some 0` (and rewrites the chunk to `[SetTop 0]`), yet
executing the chunk under the XRF semantics on the entry stack `[2]`
(top equal to the chunk's own index, no I/O performed) leaves `1` on top
of the stack, not `0`.  The root cause is `StackValue::sub` reading both
operands from `this`, computing `|1 - 1| = 0` instead of `|1 - 2| = 1`. -/
theorem successor_soundness_code_bug :
    optimizeChunk
        { commands := [⟨.Dup, 0⟩, ⟨.Dec, 0⟩, ⟨.Sub, 0⟩, ⟨.Nop, 0⟩, ⟨.Nop, 0⟩],
          line := 1, col := 1 } 2
      = some { commands := [⟨.SetTop, 0⟩], line := 1, col := 1, nextChunk := some 0 } ∧
    xrfRunChunk [⟨.Dup, 0⟩, ⟨.Dec, 0⟩, ⟨.Sub, 0⟩, ⟨.Nop, 0⟩, ⟨.Nop, 0⟩] [2] = some [1] ∧
    (1 : Nat) ≠ 0 := by
  refine ⟨by decide, by decide, by decide⟩

/-- C2.  The Sub transfer function does not compute `|a - b|`: popping
top `a = 1` with `b = 2` beneath it, the simulator pushes known value
`0` (the source computes `|a - a|`), while `|1 - 2| = 1`. -/
theorem sub_transfer_code_bug :
    (StackSimulator.sub
        { origIndex := 9, values := [StackValue.fromValue 2, StackValue.fromValue 1] }).values
      = [StackValue.fromValue 0] ∧
    (StackValue.fromValue 0).value = some 0 ∧
    (0 : Nat) ≠ 2 - 1 := by
  refine ⟨by decide, by decide, by decide⟩

/-- C6.  A chunk with commands `[Dec, Dec, Nop, Nop, Nop]` optimized at
index 2 yields `nextChunk = some 0` and the condensed command sequence
`[SetTop 0]` (source position preserved). -/
theorem optimizeChunk_dec_dec_example (ch : Chunk)
    (h : ch.commands = [⟨.Dec, 0⟩, ⟨.Dec, 0⟩, ⟨.Nop, 0⟩, ⟨.Nop, 0⟩, ⟨.Nop, 0⟩]) :
    optimizeChunk ch 2
      = some { ch with commands := [⟨.SetTop, 0⟩], nextChunk := some 0 } := by
  obtain ⟨cmds, l, co, nx⟩ := ch
  cases h
  rfl

/-- C6 witness: the theorem evaluated at a concrete chunk. -/
theorem optimizeChunk_dec_dec_example_witness :
    optimizeChunk
        { commands := [⟨.Dec, 0⟩, ⟨.Dec, 0⟩, ⟨.Nop, 0⟩, ⟨.Nop, 0⟩, ⟨.Nop, 0⟩],
          line := 3, col := 4 } 2
      = some { commands := [⟨.SetTop, 0⟩], line := 3, col := 4, nextChunk := some 0 } :=
  optimizeChunk_dec_dec_example
    { commands := [⟨.Dec, 0⟩, ⟨.Dec, 0⟩, ⟨.Nop, 0⟩, ⟨.Nop, 0⟩, ⟨.Nop, 0⟩],
      line := 3, col := 4 } rfl

/-- C7 counterexample.  For the three-chunk program whose chunks are
`[SetTop 7] → 1`, `[SetTop 8] → 2`, `[SetTop 9] → 3`, the fusion loop
follows the successor `3` and fetches `chunks[3]` from a three-element
chunk vector: an out-of-range read, not the claimed fused chunk. -/
theorem fusion_three_chunks_out_of_range :
    optimizeChunkInProgram
        [{ commands := [⟨.SetTop, 7⟩], nextChunk := some 1 },
         { commands := [⟨.SetTop, 8⟩], nextChunk := some 2 },
         { commands := [⟨.SetTop, 9⟩], nextChunk := some 3 }] 0
      = .error .outOfRange := by
  rfl

/-- C7 amended.  With a fourth, non-fusable chunk present at index 3 (so
that the successor 3 is a valid index), fusing from chunk 0 accumulates
`[SetTop k0, SetTop k1, SetTop k2]`, condenses it to the right-most
SetTop, and emits commands `[SetTop k2]` with `nextChunk = some 3`. -/
theorem fusion_four_chunks_collapse (k0 k1 k2 : Int) :
    optimizeChunkInProgram
        [{ commands := [⟨.SetTop, k0⟩], nextChunk := some 1 },
         { commands := [⟨.SetTop, k1⟩], nextChunk := some 2 },
         { commands := [⟨.SetTop, k2⟩], nextChunk := some 3 },
         { commands := [⟨.Nop, 0⟩, ⟨.Nop, 0⟩, ⟨.Nop, 0⟩, ⟨.Nop, 0⟩, ⟨.Nop, 0⟩] }] 0
      = .ok { commands := [⟨.SetTop, k2⟩], nextChunk := some 3 } := by
  rfl

/-- C7 amended, witness at concrete payloads. -/
theorem fusion_four_chunks_collapse_witness :
    optimizeChunkInProgram
        [{ commands := [⟨.SetTop, 7⟩], nextChunk := some 1 },
         { commands := [⟨.SetTop, 8⟩], nextChunk := some 2 },
         { commands := [⟨.SetTop, 9⟩], nextChunk := some 3 },
         { commands := [⟨.Nop, 0⟩, ⟨.Nop, 0⟩, ⟨.Nop, 0⟩, ⟨.Nop, 0⟩, ⟨.Nop, 0⟩] }] 0
      = .ok { commands := [⟨.SetTop, 9⟩], nextChunk := some 3 } :=
  fusion_four_chunks_collapse 7 8 9

/-- C8.  Lowering `PushSecondValue v` stores `v` into
`stack[stack_top]`, advances `stack_top` to `(stack_top + 1) AND MASK`,
and leaves `top_value` (the logical top) untouched — so reading the
second slot afterwards yields `v`: the value was inserted below the
current top. -/
theorem generatePushSecondValue_correct (s : GenState) (v : Nat)
    (h : s.stackTop < STACK_SIZE) :
    (generatePushSecondValue s v).stack s.stackTop = v ∧
    (generatePushSecondValue s v).stackTop = (s.stackTop + 1) % STACK_SIZE ∧
    (generatePushSecondValue s v).topValue = s.topValue ∧
    (generatePushSecondValue s v).stack
        (secondSlotIndex (generatePushSecondValue s v).stackTop) = v := by
  refine ⟨?_, rfl, rfl, ?_⟩
  · simp [generatePushSecondValue]
  · have : secondSlotIndex ((s.stackTop + 1) % STACK_SIZE) = s.stackTop := by
      simp only [secondSlotIndex, STACK_SIZE, STACK_MASK] at *
      omega
    simp [generatePushSecondValue, this]

/-- C8 witness at a concrete state. -/
theorem generatePushSecondValue_correct_witness :
    (generatePushSecondValue ⟨fun _ => 0, 3, 65535, 7⟩ 42).stack 3 = 42 ∧
    (generatePushSecondValue ⟨fun _ => 0, 3, 65535, 7⟩ 42).stackTop = (3 + 1) % STACK_SIZE ∧
    (generatePushSecondValue ⟨fun _ => 0, 3, 65535, 7⟩ 42).topValue = 7 ∧
    (generatePushSecondValue ⟨fun _ => 0, 3, 65535, 7⟩ 42).stack
        (secondSlotIndex (generatePushSecondValue ⟨fun _ => 0, 3, 65535, 7⟩ 42).stackTop) = 42 :=
  generatePushSecondValue_correct ⟨fun _ => 0, 3, 65535, 7⟩ 42 (by decide)

/-- C9 counterexample.  The simulator seeds the chunk-entry top of stack
of chunk 0 with known value 0 *and* origin index 0; `dec` on it clears
the value but keeps the index, so the result is an Indexed value, not an
Opaque one (Opaque requires both `value` and `index` absent). -/
theorem dec_entry_value_not_opaque :
    (StackSimulator.init 0).values = [StackValue.mkIndexValue 0 0] ∧
    (StackValue.mkIndexValue 0 0).value = some 0 ∧
    (StackValue.dec (StackValue.mkIndexValue 0 0)).index = some 0 := by
  refine ⟨by decide, by decide, by decide⟩

/-- C9 amended.  `dec` on a known value `k > 0` yields known value
`k - 1` (all other fields unchanged); on known value 0 it clears the
value and decrements the change but preserves the index, so the result
is Opaque exactly when the value carried no index — the chunk-entry
value, seeded with index 0, becomes Indexed instead. -/
theorem dec_known_value_behavior (v : StackValue) :
    (∀ k, v.value = some k → 0 < k → v.dec = { v with value := some (k - 1) }) ∧
    (v.value = some 0 →
      v.dec = { v with value := none, knownChange := v.knownChange - 1 } ∧
      v.dec.index = v.index) := by
  constructor
  · intro k hv hk
    simp [StackValue.dec, StackValue.hasKnownValue, StackValue.getKnownValue, hv, hk]
  · intro hv
    constructor
    · simp [StackValue.dec, StackValue.hasKnownValue, StackValue.getKnownValue, hv]
    · simp [StackValue.dec, StackValue.hasKnownValue, StackValue.getKnownValue, hv]

/-- C9 amended, witness: `dec` at the seeded entry value of chunk 0 and
at a positive known value. -/
theorem dec_known_value_behavior_witness :
    StackValue.dec (StackValue.mkIndexValue 0 0)
      = { StackValue.mkIndexValue 0 0 with value := none, knownChange := -1 } ∧
    StackValue.dec (StackValue.fromValue 5) = { StackValue.fromValue 5 with value := some 4 } :=
  ⟨((dec_known_value_behavior (StackValue.mkIndexValue 0 0)).2 rfl).1,
   (dec_known_value_behavior (StackValue.fromValue 5)).1 5 rfl (by decide)⟩

end Xrf
